import Mathlib

/-
  Verification of the testdoc compiler (src/compile.js).

  The development shallowly embeds the compilation pipeline of compile.js:
  markdown scanning, sample parsing, annotation detection and rewriting,
  hoisting of module declarations, program assembly, and module reference
  remapping with its per-directory manifest cache.

  Modelling conventions:
  - Host-language syntax trees (babel) are modelled by the inductives JSExpr,
    Stmt and TopStmt below; only the constructors the pipeline inspects or
    builds are represented, everything else is carried opaquely.
  - The external markdown parser (remark) is external to the repository, so
    the compiler input is the already-parsed list of top-level blocks.
  - The external source parser (babylon) is external as well; a code sample
    is identified with its parse outcome (ParseOutcome below): a statement
    list on success, the thrown error on failure.
  - Filesystem paths are normalized absolute paths, represented by their
    component lists; the filesystem visible to the manifest lookup is a map
    from a directory to the declared package name of a manifest stored there.
-/

namespace Testdoc

/-- Characters recognized as whitespace by the regex class backslash-s of the
host language (the Latin-1 fragment; the exotic Unicode space code points do
not occur in line comments handled here). -/
def jsSpaceChars : String := " \t\n\r\x0b\x0c"

/-- Test for a whitespace character, as used by the leading part of both
assertion regexes in compile.js lines 29-30. -/
def isJsSpace (c : Char) : Bool := jsSpaceChars.toList.contains c

/-- Matching of REPR_ASSERTION_RE (compile.js line 29), the anchored regex
consisting of optional whitespace followed by the marker arrow and a space. -/
def reprMatchB (s : String) : Bool :=
  "=> ".toList.isPrefixOf (s.toList.dropWhile isJsSpace)

/-- Effect of firstLine.replace(REPR_ASSERTION_RE, ...) with an empty
replacement (compile.js line 183): the matched prefix, when present, is
removed; otherwise the string is unchanged. -/
def stripReprMarker (s : String) : String :=
  let rest := s.toList.dropWhile isJsSpace
  if "=> ".toList.isPrefixOf rest then String.mk (rest.drop 3) else s

/-- Matching of ERR_ASSSERTION_RE (compile.js line 30): optional whitespace,
then a letter run that ends in the word Error (the capture group), then a
colon and a space.  On success, returns the captured group and the remainder
of the line after the match. -/
def errMatch (s : String) : Option (String × String) :=
  let cs := s.toList.dropWhile isJsSpace
  let run := cs.takeWhile Char.isAlpha
  let rest := cs.dropWhile Char.isAlpha
  if "Error".toList.isSuffixOf run && ": ".toList.isPrefixOf rest then
    some (String.mk run, String.mk (rest.drop 2))
  else
    none

/-- Host-language expressions, as far as the rewriter inspects or builds
them.  Original sample expressions are carried opaquely via the raw
constructor. -/
inductive JSExpr where
  | ident : String → JSExpr
  | stringLit : String → JSExpr
  | member : JSExpr → String → JSExpr
  | call : JSExpr → List JSExpr → JSExpr
  | asyncArrow : JSExpr → JSExpr
  | awaitExpr : JSExpr → JSExpr
  | raw : String → JSExpr
deriving Repr

/-- Host-language statements inside a sample body.  An expression statement
carries its own trailing comment values (the text after the comment marker,
one entry per comment) and the TESTDOC_SEEN marker (compile.js line 32),
which is false on every freshly parsed node.  Blocks model nested statement
containers that the traversal descends into; statements of any other kind
are opaque. -/
inductive Stmt where
  | exprStmt : JSExpr → List String → Bool → Stmt
  | importDecl : String → Stmt
  | block : List Stmt → Stmt
  | otherStmt : String → Stmt
deriving Repr

/-- Result of findAssertion (compile.js line 199). -/
inductive AssertKind where
  | repr
  | error
deriving Repr, DecidableEq

/-- findAssertion (compile.js lines 199-216): a statement is an assertion
only if it is an expression statement with at least one trailing comment;
the first trailing comment is classified against the two regexes. -/
def findAssertion : Stmt → Option AssertKind
  | .exprStmt _ comments _ =>
    match comments with
    | [] => none
    | c0 :: _ =>
      if reprMatchB c0 then some .repr
      else if (errMatch c0).isSome then some .error
      else none
  | _ => none

/-- Expected representation text assembled by parseExpectationFromNode for
the repr case (compile.js lines 179-187): first comment with the marker
match removed, then every further comment minus its first character, joined
with newline.  The empty-comment case is unreachable: the function is only
invoked on statements accepted by findAssertion. -/
def reprText : List String → String
  | [] => ""
  | c0 :: rest =>
    String.intercalate "\n" (stripReprMarker c0 :: rest.map (fun l => l.drop 1))

/-- Expected error name and message assembled by parseExpectationFromNode
for the error case (compile.js lines 188-196).  The fallback branches are
unreachable: the function is only invoked on statements accepted by
findAssertion. -/
def errNameMessage : List String → String × String
  | [] => ("", "")
  | c0 :: rest =>
    match errMatch c0 with
    | some (n, m) =>
      (n, String.intercalate "\n" (m :: rest.map (fun l => l.drop 1)))
    | none => ("", "")

/-- Reference to a member of the runtime helper namespace import. -/
def runtimeMember (n : String) : JSExpr :=
  .member (.ident "__MochaDoctestRuntime") n

/-- Replacement statement built by the repr branch of the traversal
(compile.js lines 83-90): a call of the representation assertion primitive
on the original expression and the expected text.  The trailing comments of
the original node are inherited by the replacement (babel replaceWithMultiple
copies them onto the last replacement node) and the TESTDOC_SEEN marker is
set (compile.js line 104). -/
def reprReplacement (e : JSExpr) (comments : List String) : Stmt :=
  .exprStmt
    (.call (runtimeMember "assertRepr") [e, .stringLit (reprText comments)])
    comments true

/-- Replacement statement built by the error branch of the traversal
(compile.js lines 91-101): the original expression is wrapped in a
zero-argument asynchronous arrow, and the statement becomes an awaited call
of the error assertion primitive on that thunk, the expected name and the
expected message.  Comments are inherited and the marker set, as above. -/
def errorReplacement (e : JSExpr) (comments : List String) : Stmt :=
  .exprStmt
    (.awaitExpr (.call (runtimeMember "assertError")
      [.asyncArrow e,
       .stringLit (errNameMessage comments).1,
       .stringLit (errNameMessage comments).2]))
    comments true

mutual

/-- One visit of the enter callback (compile.js lines 79-110) on a single
statement, together with the recursive descent of the traversal into nested
statement containers.  The first component is the statement left in place
(none for a removed module declaration), the second the list of hoisted
module specifiers in discovery order. -/
def rewriteStmt : Stmt → Option Stmt × List String
  | .exprStmt e comments seen =>
    if seen then (some (.exprStmt e comments seen), [])
    else
      match findAssertion (.exprStmt e comments seen) with
      | some .repr => (some (reprReplacement e comments), [])
      | some .error => (some (errorReplacement e comments), [])
      | none => (some (.exprStmt e comments seen), [])
  | .importDecl spec => (none, [spec])
  | .block body =>
    let r := rewriteList body
    (some (.block r.1), r.2)
  | .otherStmt t => (some (.otherStmt t), [])

/-- Traversal of a statement sequence: each statement is visited in order;
removed statements disappear from the sequence, hoisted specifiers are
concatenated in discovery order. -/
def rewriteList : List Stmt → List Stmt × List String
  | [] => ([], [])
  | s :: rest =>
    let r1 := rewriteStmt s
    let r2 := rewriteList rest
    (r1.1.toList ++ r2.1, r1.2 ++ r2.2)

end

/-- Parse outcome of one code sample.  The source parser (babylon) is an
external collaborator of the repository: wrapping the sample text in a
synthetic asynchronous function (compile.js lines 70-76) and parsing it
either yields the statement sequence of that function body, or throws; a
sample is therefore identified with its parse outcome. -/
inductive ParseOutcome where
  | ok : List Stmt → ParseOutcome
  | fail : String → ParseOutcome
deriving Repr

/-- Top-level markdown blocks, as far as the scan inspects them: paragraphs
are carried by their flattened text (mdastToString), code blocks by their
language tag and sample source; any other block is opaque. -/
inductive Block where
  | paragraph : String → Block
  | code : String → ParseOutcome → Block
  | otherBlock : Block
deriving Repr

/-- Entry of testCaseList (compile.js lines 56-60). -/
structure Sample where
  title : Option String
  lang : String
  value : ParseOutcome
deriving Repr

/-- Property names that a plain object literal of the host language
inherits through its prototype chain; looking any of them up on such an
object yields a truthy value (a built-in function, or, for the last entry,
the prototype object itself). -/
def objectPrototypeMembers : List String :=
  ["constructor", "hasOwnProperty", "isPrototypeOf", "propertyIsEnumerable",
   "toLocaleString", "toString", "valueOf", "__defineGetter__",
   "__defineSetter__", "__lookupGetter__", "__lookupSetter__", "__proto__"]

/-- Truthiness of the lookup SUPPORTED_LANG[lang] (compile.js lines 36-39
and 55).  The object literal holds true for the two listed spellings, but
the lookup is an unguarded property access, so it also finds the inherited
members of the object prototype, every one of which is truthy: a tag equal
to such a member name is accepted as well. -/
def SUPPORTED_LANG (l : String) : Bool :=
  l == "js+test" || l == "javasctipt+test" || objectPrototypeMembers.contains l

/-- Recognition test applied to a block by the scan: a code block whose tag
is in the allow-list. -/
def isSupportedCodeBlock : Block → Bool
  | .code lang _ => SUPPORTED_LANG lang
  | _ => false

/-- Trailing-colon stripping of a derived title (compile.js lines 52-54):
when the last character is a colon it is sliced off; the truthiness guard
on title makes the empty string pass through. -/
def stripTrailingColon (t : String) : String :=
  match t.toList.getLast? with
  | some c => if c = ':' then String.mk t.toList.dropLast else t
  | none => t

/-- Title derivation from the block preceding a code block (compile.js
lines 47-54): the flattened text of an immediately preceding paragraph,
colon-stripped; absent otherwise. -/
def titleFrom : Option Block → Option String
  | some (.paragraph t) => some (stripTrailingColon t)
  | _ => none

/-- The code-block visit of compile.js lines 46-62, walking the block list
while remembering the preceding sibling. -/
def scanAux (prev : Option Block) : List Block → List Sample
  | [] => []
  | b :: rest =>
    (match b with
     | .code lang v =>
       if SUPPORTED_LANG lang then [⟨titleFrom prev, lang, v⟩] else []
     | _ => []) ++ scanAux (some b) rest

/-- Document scan: ordered list of recognized samples. -/
def scanSamples (blocks : List Block) : List Sample := scanAux none blocks

/-- Parsing of one sample (compile.js lines 69-76); a failure is the thrown
exception, which aborts the compilation. -/
def parseSample (s : Sample) : Except String (List Stmt) :=
  match s.value with
  | .ok body => .ok body
  | .fail e => .error e

/-- The logical-or fallback of the host language on a possibly absent
string: both an absent value and the empty string select the fallback. -/
def orFalsy : Option String → String → String
  | some s, d => if s = "" then d else s
  | none, d => d

/-- One generated test case: the case registration built at compile.js
lines 114-119, an it call carrying the case title and an asynchronous
function literal holding the rewritten sample body. -/
structure TestCase where
  title : String
  body : List Stmt
  caseIsAsync : Bool
deriving Repr

/-- The per-sample loop of compile.js lines 68-120, threading the mutable
importList and caseList accumulators; a parse failure propagates as the
thrown exception and stops the loop. -/
def processSamples :
    List Sample → List String → List TestCase →
    Except String (List String × List TestCase)
  | [], imps, cases => .ok (imps, cases)
  | s :: rest, imps, cases =>
    match parseSample s with
    | .error e => .error e
    | .ok body =>
      let r := rewriteList body
      processSamples rest (imps ++ r.2)
        (cases ++ [⟨orFalsy s.title "works", r.1, true⟩])

/-- Resolved path of the polyfill module (compile.js line 34); the concrete
path produced by module resolution is irrelevant to the pipeline, the module
id stands for it. -/
def POLYFILL : String := "babel-polyfill"

/-- Resolved path of the runtime helper module (compile.js line 33). -/
def RUNTIME : String := "./runtime"

/-- Top-level statements of the assembled program. -/
inductive TopStmt where
  | importSideEffect : String → TopStmt
  | importNamespace : String → String → TopStmt
  | importDefault : String → String → TopStmt
  | importFrom : String → TopStmt
  | describeCall : String → List TestCase → TopStmt
deriving Repr

/-- Compiler options (compile.js lines 24-27). -/
structure Options where
  name : Option String := none
  filename : Option String := none

/-- Suite title selection (compile.js line 133). -/
def suiteTitle (opts : Options) : String :=
  orFalsy opts.name (orFalsy opts.filename "Suite")

/-- Program assembly (compile.js lines 41-137): fixed preamble, hoisted
module declarations, one suite registration. -/
def assemble (blocks : List Block) (opts : Options) :
    Except String (List TopStmt) :=
  match processSamples (scanSamples blocks) [] [] with
  | .error e => .error e
  | .ok (imps, cases) =>
    .ok ([.importSideEffect POLYFILL,
          .importNamespace "__MochaDoctestRuntime" RUNTIME,
          .importDefault "assert" "assert"]
         ++ imps.map TopStmt.importFrom
         ++ [.describeCall (suiteTitle opts) cases])

/-- Manifest data used by the module reference remapper: the declared
package name and the directory holding the manifest file (the dirname of
the field called path in compile.js lines 154-157). -/
structure PackageJSON where
  name : String
  dir : List String
deriving Repr, DecidableEq

/-- Splitting of a character list at the path separator. -/
def splitComponents : List Char → List (List Char)
  | [] => [[]]
  | c :: rest =>
    match splitComponents rest with
    | [] => [[]]
    | g :: gs => if c = '/' then [] :: g :: gs else (c :: g) :: gs

/-- Component list of a normalized absolute path string: the non-empty
groups between path separators. -/
def pathComponents (p : String) : List String :=
  ((splitComponents p.toList).map String.mk).filter (fun c => c != "")

/-- Upward manifest walk of the find-package-json dependency (compile.js
line 149), stepping from the start directory towards the root: the number
of remaining parent steps equals the directory depth. -/
def findPackageJSONAux (fs : List String → Option String) :
    Nat → List String → Option PackageJSON
  | 0, d => (fs d).map (fun n => ⟨n, d⟩)
  | k + 1, d =>
    match fs d with
    | some n => some ⟨n, d⟩
    | none => findPackageJSONAux fs k d.dropLast

/-- The nearest directory at or above the start that holds a manifest,
together with the declared package name found there. -/
def findPackageJSON (fs : List String → Option String)
    (d : List String) : Option PackageJSON :=
  findPackageJSONAux fs d.length d

/-- Length of the longest common prefix of two component lists. -/
def commonPrefixLen : List String → List String → Nat
  | a :: as, b :: bs => if a = b then commonPrefixLen as bs + 1 else 0
  | _, _ => 0

/-- Relative path between two normalized absolute directories, as computed
by the path module of the host platform: step up out of the non-shared part
of the source, then down the non-shared part of the target; the empty
string when the directories coincide. -/
def relativePath (source target : List String) : String :=
  let k := commonPrefixLen source target
  String.intercalate "/"
    (List.replicate (source.length - k) ".." ++ target.drop k)

/-- The logical-or fallback of the host language on strings. -/
def jsOr (a b : String) : String := if a = "" then b else a

/-- Branch logic of resolveModuleSource (compile.js lines 151-168), given
the manifest lookup result for the importing directory: null passes the
specifier through; an exact name match maps to the relative path to the
manifest directory (defaulting on empty) plus a path separator; a
name-plus-separator prefix is replaced by that relative path keeping the
remainder; anything else passes through. -/
def resolveGiven (pj? : Option PackageJSON) (source : String)
    (dirname : List String) : String :=
  match pj? with
  | none => source
  | some pj =>
    if source = pj.name then
      jsOr (relativePath dirname pj.dir) "." ++ "/"
    else if (pj.name ++ "/").toList.isPrefixOf source.toList then
      jsOr (relativePath dirname pj.dir) "." ++ source.drop pj.name.length
    else source

/-- resolveModuleSource (compile.js lines 146-169) without the cache: the
importing directory is the dirname of the importing file, the manifest is
found by the upward walk. -/
def resolveModuleSource (fs : List String → Option String)
    (source filename : String) : String :=
  let dirname := (pathComponents filename).dropLast
  resolveGiven (findPackageJSON fs dirname) source dirname

/-- State of the manifest lookup cache (packageJSONCache, compile.js line
139) together with an audit log of the directories for which the upward
walk actually ran.  A directory absent from the association list was never
attempted; an entry holding none records a walk that found no manifest (the
null cached at compile.js line 149). -/
structure CacheState where
  cache : List (List String × Option PackageJSON)
  walks : List (List String)
deriving Repr

/-- The cache object freshly created inside each compile invocation
(compile.js line 139). -/
def freshCacheState : CacheState := ⟨[], []⟩

/-- Association-list lookup distinguishing a missing key from a cached
null. -/
def lookupCache (c : List (List String × Option PackageJSON))
    (d : List String) : Option (Option PackageJSON) :=
  match c with
  | [] => none
  | (k, v) :: rest => if k = d then some v else lookupCache rest d

/-- resolveModuleSource with its cache (compile.js lines 146-169): the
upward walk runs only when the importing directory has no cache entry, and
its result, even a failure, is stored. -/
def resolveWithCache (fs : List String → Option String) (st : CacheState)
    (source filename : String) : String × CacheState :=
  let dirname := (pathComponents filename).dropLast
  match lookupCache st.cache dirname with
  | some cached => (resolveGiven cached source dirname, st)
  | none =>
    let pj := findPackageJSON fs dirname
    (resolveGiven pj source dirname,
     ⟨(dirname, pj) :: st.cache, st.walks ++ [dirname]⟩)

/-- File name under which the assembled program is transformed: the
filename option, or the default supplied by the transformer when the option
is absent. -/
def babelFilename (opts : Options) : String :=
  match opts.filename with
  | some f => f
  | none => "unknown"

/-- Application of the module reference remapper to one top-level statement
during code emission: every module source in the program goes through
resolveModuleSource; the suite registration holds no module declarations
(they were hoisted), so it is untouched. -/
def transformTop (fs : List String → Option String) (fname : String)
    (t : TopStmt) (st : CacheState) : TopStmt × CacheState :=
  match t with
  | .importSideEffect s =>
    let r := resolveWithCache fs st s fname
    (.importSideEffect r.1, r.2)
  | .importNamespace b s =>
    let r := resolveWithCache fs st s fname
    (.importNamespace b r.1, r.2)
  | .importDefault b s =>
    let r := resolveWithCache fs st s fname
    (.importDefault b r.1, r.2)
  | .importFrom s =>
    let r := resolveWithCache fs st s fname
    (.importFrom r.1, r.2)
  | .describeCall ttl cs => (.describeCall ttl cs, st)

/-- The transformation pass over the assembled program (compile.js lines
142-170), threading the manifest cache through the statements in order. -/
def transformProgram (fs : List String → Option String) (fname : String) :
    List TopStmt → CacheState → List TopStmt × CacheState
  | [], st => ([], st)
  | t :: rest, st =>
    let r := transformTop fs fname t st
    let rr := transformProgram fs fname rest r.2
    (r.1 :: rr.1, rr.2)

/-- The whole compile pipeline (compile.js lines 41-173) up to code
emission: assembly, then the transformation pass starting from a fresh
manifest cache.  Serialization of the resulting tree to text is the
external code generator. -/
def compile (fs : List String → Option String) (blocks : List Block)
    (opts : Options) : Except String (List TopStmt) :=
  match assemble blocks opts with
  | .error e => .error e
  | .ok prog =>
    .ok (transformProgram fs (babelFilename opts) prog freshCacheState).1

mutual

/-- Observation: does a statement contain a module declaration anywhere. -/
def stmtHasImport : Stmt → Bool
  | .importDecl _ => true
  | .block body => listHasImport body
  | .exprStmt _ _ _ => false
  | .otherStmt _ => false

/-- Observation: does a statement sequence contain a module declaration
anywhere. -/
def listHasImport : List Stmt → Bool
  | [] => false
  | s :: rest => stmtHasImport s || listHasImport rest

end

mutual

/-- Observation: the module specifiers occurring in a statement, in
depth-first order. -/
def importsOfStmt : Stmt → List String
  | .importDecl s => [s]
  | .block body => importsOfList body
  | .exprStmt _ _ _ => []
  | .otherStmt _ => []

/-- Observation: the module specifiers occurring in a statement sequence,
in depth-first order. -/
def importsOfList : List Stmt → List String
  | [] => []
  | s :: rest => importsOfStmt s ++ importsOfList rest

end

/-! Helper lemmas about character-list scanning, shared by the regex
characterizations below. -/

theorem dropWhile_append_all {α : Type} (p : α → Bool) (ws l : List α)
    (h : ∀ c ∈ ws, p c = true) :
    List.dropWhile p (ws ++ l) = List.dropWhile p l := by
  induction ws with
  | nil => simp
  | cons a as ih =>
    have ha : p a = true := h a (by simp)
    simp only [List.cons_append, List.dropWhile_cons, ha, if_pos]
    exact ih (fun c hc => h c (by simp [hc]))

theorem dropWhile_cons_neg {α : Type} (p : α → Bool) (a : α) (l : List α)
    (h : p a = false) : List.dropWhile p (a :: l) = a :: l := by
  simp [List.dropWhile_cons, h]

theorem takeWhile_middle {α : Type} (p : α → Bool) (xs : List α) (y : α)
    (rest : List α) (hxs : ∀ c ∈ xs, p c = true) (hy : p y = false) :
    List.takeWhile p (xs ++ y :: rest) = xs := by
  induction xs with
  | nil => simp [List.takeWhile_cons, hy]
  | cons a as ih =>
    have ha : p a = true := hxs a (by simp)
    simp only [List.cons_append, List.takeWhile_cons, ha, if_pos]
    rw [ih (fun c hc => hxs c (by simp [hc]))]

theorem dropWhile_middle {α : Type} (p : α → Bool) (xs : List α) (y : α)
    (rest : List α) (hxs : ∀ c ∈ xs, p c = true) (hy : p y = false) :
    List.dropWhile p (xs ++ y :: rest) = y :: rest := by
  rw [dropWhile_append_all p xs _ hxs, dropWhile_cons_neg p y rest hy]

theorem isJsSpace_not_alpha (c : Char) (h : isJsSpace c = true) :
    c.isAlpha = false := by
  have hl : jsSpaceChars.toList = [' ', '\t', '\n', '\r', '\x0b', '\x0c'] := rfl
  have hm : c ∈ jsSpaceChars.toList := by
    simpa [isJsSpace] using h
  rw [hl] at hm
  simp only [List.mem_cons, List.mem_singleton, List.not_mem_nil] at hm
  rcases hm with h1 | h1 | h1 | h1 | h1 | h1 | h1 <;> first
    | (subst h1; decide)
    | exact absurd h1 (by simp)

theorem alpha_not_jsSpace (c : Char) (h : c.isAlpha = true) :
    isJsSpace c = false := by
  by_cases hs : isJsSpace c = true
  · rw [isJsSpace_not_alpha c hs] at h; exact absurd h (by simp)
  · simpa using hs

/-- Characterization of the repr detection regex: a line matches exactly
when it is optional whitespace, then the marker arrow and a space, then
anything. -/
theorem reprMatchB_iff (s : String) :
    reprMatchB s = true ↔
      ∃ ws tail, s.toList = ws ++ "=> ".toList ++ tail ∧
        ∀ c ∈ ws, isJsSpace c = true := by
  constructor
  · intro h
    have hp : "=> ".toList <+: (s.toList.dropWhile isJsSpace) :=
      (List.isPrefixOf_iff_prefix).1 (by simpa [reprMatchB] using h)
    rcases hp with ⟨t, ht⟩
    refine ⟨s.toList.takeWhile isJsSpace, t, ?_, ?_⟩
    · conv_lhs => rw [← List.takeWhile_append_dropWhile (p := isJsSpace) (l := s.toList)]
      rw [← ht, List.append_assoc]
    · intro c hc; exact List.mem_takeWhile_imp hc
  · rintro ⟨ws, tail, hs, hws⟩
    have harr : "=> ".toList = '=' :: '>' :: ' ' :: [] := rfl
    have hd : List.dropWhile isJsSpace s.toList = "=> ".toList ++ tail := by
      rw [hs, List.append_assoc]
      rw [dropWhile_append_all isJsSpace ws _ hws]
      rw [harr]
      exact dropWhile_cons_neg isJsSpace _ _ (by decide)
    simp only [reprMatchB, hd]
    exact (List.isPrefixOf_iff_prefix).2 (List.prefix_append _ _)

/-- Characterization of the error detection regex: it matches, capturing
name and message, exactly when the line is optional whitespace, then a
letter run ending in the word Error, then a colon and a space, then the
message remainder. -/
theorem errMatch_eq_some_iff (s n m : String) :
    errMatch s = some (n, m) ↔
      ∃ ws name tail, s.toList = ws ++ name ++ ": ".toList ++ tail ∧
        (∀ c ∈ ws, isJsSpace c = true) ∧
        (∀ c ∈ name, c.isAlpha = true) ∧
        "Error".toList.isSuffixOf name = true ∧
        n = String.mk name ∧ m = String.mk tail := by
  constructor
  · intro h
    simp only [errMatch] at h
    set cs := s.toList.dropWhile isJsSpace with hcs
    by_cases hcond :
        ("Error".toList.isSuffixOf (cs.takeWhile Char.isAlpha)
          && ": ".toList.isPrefixOf (cs.dropWhile Char.isAlpha)) = true
    · rw [if_pos hcond] at h
      rw [Bool.and_eq_true] at hcond
      have hsuf := hcond.1
      have hpre := hcond.2
      rcases (List.isPrefixOf_iff_prefix).1 hpre with ⟨t, ht⟩
      refine ⟨s.toList.takeWhile isJsSpace, cs.takeWhile Char.isAlpha, t, ?_, ?_, ?_, hsuf, ?_, ?_⟩
      · conv_lhs => rw [← List.takeWhile_append_dropWhile (p := isJsSpace) (l := s.toList)]
        rw [← hcs]
        conv_lhs => rw [← List.takeWhile_append_dropWhile (p := Char.isAlpha) (l := cs)]
        rw [← ht]
        simp [List.append_assoc]
      · intro c hc; exact List.mem_takeWhile_imp hc
      · intro c hc; exact List.mem_takeWhile_imp hc
      · cases h; rfl
      · cases h
        have hdrop : (List.dropWhile Char.isAlpha cs).drop 2 = t := by
          rw [← ht]; rfl
        rw [hdrop]
    · rw [if_neg hcond] at h; cases h
  · rintro ⟨ws, name, tail, hs, hws, hname, hsuf, hn, hm⟩
    have hnonempty : name ≠ [] := by
      rcases (List.isSuffixOf_iff_suffix).1 hsuf with ⟨t, ht⟩
      intro hne
      rw [hne] at ht
      have := congrArg List.length ht
      simp at this
    obtain ⟨a, as, hcons⟩ := List.exists_cons_of_ne_nil hnonempty
    have hcol : ": ".toList = ':' :: ' ' :: [] := rfl
    have hcs : s.toList.dropWhile isJsSpace = name ++ ": ".toList ++ tail := by
      rw [hs, List.append_assoc, List.append_assoc]
      rw [dropWhile_append_all isJsSpace ws _ hws]
      rw [← List.append_assoc, hcons]
      exact dropWhile_cons_neg isJsSpace _ _
        (alpha_not_jsSpace a (hname a (by simp [hcons])))
    have htake : (s.toList.dropWhile isJsSpace).takeWhile Char.isAlpha = name := by
      rw [hcs, hcol, List.append_assoc]
      exact takeWhile_middle Char.isAlpha name _ _ hname (by decide)
    have hdrop : (s.toList.dropWhile isJsSpace).dropWhile Char.isAlpha =
        ':' :: ' ' :: tail := by
      rw [hcs, hcol, List.append_assoc]
      exact dropWhile_middle Char.isAlpha name _ _ hname (by decide)
    simp only [errMatch, htake, hdrop]
    rw [if_pos]
    · rw [hn, hm]
      rfl
    · rw [Bool.and_eq_true]
      refine ⟨hsuf, ?_⟩
      rw [hcol]
      exact (List.isPrefixOf_iff_prefix).2 ⟨tail, rfl⟩

/-! Helper lemmas about the rewriter. -/

mutual

/-- A statement left in place by a visit is inert: visiting it again
changes nothing and hoists nothing. -/
theorem rewriteStmt_replaced :
    ∀ (s s2 : Stmt), (rewriteStmt s).1 = some s2 → rewriteStmt s2 = (some s2, [])
  | .exprStmt e comments seen, s2, h => by
    cases seen with
    | true =>
      simp only [rewriteStmt, if_pos, Option.some.injEq] at h
      subst h
      simp [rewriteStmt]
    | false =>
      cases hfa : findAssertion (.exprStmt e comments false) with
      | none =>
        simp only [rewriteStmt, Bool.false_eq_true, if_false, hfa,
          Option.some.injEq] at h
        subst h
        simp [rewriteStmt, hfa]
      | some k =>
        cases k with
        | repr =>
          simp only [rewriteStmt, Bool.false_eq_true, if_false, hfa,
            Option.some.injEq] at h
          subst h
          simp [rewriteStmt, reprReplacement]
        | error =>
          simp only [rewriteStmt, Bool.false_eq_true, if_false, hfa,
            Option.some.injEq] at h
          subst h
          simp [rewriteStmt, errorReplacement]
  | .importDecl spec, s2, h => by
    simp [rewriteStmt] at h
  | .block body, s2, h => by
    simp only [rewriteStmt, Option.some.injEq] at h
    subst h
    have hb := rewriteList_second body
    simp [rewriteStmt, hb]
  | .otherStmt t, s2, h => by
    simp only [rewriteStmt, Option.some.injEq] at h
    subst h
    simp [rewriteStmt]

/-- A second traversal of the output of a traversal leaves it unchanged and
hoists nothing. -/
theorem rewriteList_second :
    ∀ (l : List Stmt), rewriteList (rewriteList l).1 = ((rewriteList l).1, [])
  | [] => by simp [rewriteList]
  | s :: rest => by
    have hr := rewriteList_second rest
    cases ho : (rewriteStmt s).1 with
    | none =>
      simp [rewriteList, ho, hr]
    | some s2 =>
      have hs := rewriteStmt_replaced s s2 ho
      simp [rewriteList, ho, hs, hr]

end

mutual

/-- No module declaration survives a visit. -/
theorem rewriteStmt_no_import :
    ∀ (s s2 : Stmt), (rewriteStmt s).1 = some s2 → stmtHasImport s2 = false
  | .exprStmt e comments seen, s2, h => by
    cases seen with
    | true =>
      simp only [rewriteStmt, if_pos, Option.some.injEq] at h
      subst h; rfl
    | false =>
      cases hfa : findAssertion (.exprStmt e comments false) with
      | none =>
        simp only [rewriteStmt, Bool.false_eq_true, if_false, hfa,
          Option.some.injEq] at h
        subst h; rfl
      | some k =>
        cases k with
        | repr =>
          simp only [rewriteStmt, Bool.false_eq_true, if_false, hfa,
            Option.some.injEq] at h
          subst h; rfl
        | error =>
          simp only [rewriteStmt, Bool.false_eq_true, if_false, hfa,
            Option.some.injEq] at h
          subst h; rfl
  | .importDecl spec, s2, h => by
    simp [rewriteStmt] at h
  | .block body, s2, h => by
    simp only [rewriteStmt, Option.some.injEq] at h
    subst h
    have hb := rewriteList_no_import body
    simpa [stmtHasImport] using hb
  | .otherStmt t, s2, h => by
    simp only [rewriteStmt, Option.some.injEq] at h
    subst h; rfl

/-- No module declaration survives a traversal. -/
theorem rewriteList_no_import :
    ∀ (l : List Stmt), listHasImport (rewriteList l).1 = false
  | [] => by simp [rewriteList, listHasImport]
  | s :: rest => by
    have hr := rewriteList_no_import rest
    cases ho : (rewriteStmt s).1 with
    | none =>
      simpa [rewriteList, ho] using hr
    | some s2 =>
      have hs := rewriteStmt_no_import s s2 ho
      simp [rewriteList, ho, listHasImport, hs, hr]

end

mutual

/-- The specifiers hoisted from a statement are exactly the module
declarations it contains, in depth-first order. -/
theorem rewriteStmt_imports :
    ∀ (s : Stmt), (rewriteStmt s).2 = importsOfStmt s
  | .exprStmt e comments seen => by
    cases seen with
    | true => rfl
    | false =>
      cases hfa : findAssertion (.exprStmt e comments false) with
      | none => simp [rewriteStmt, hfa, importsOfStmt]
      | some k =>
        cases k with
        | repr => simp [rewriteStmt, hfa, importsOfStmt]
        | error => simp [rewriteStmt, hfa, importsOfStmt]
  | .importDecl spec => rfl
  | .block body => by
    have hb := rewriteList_imports body
    simpa [rewriteStmt, importsOfStmt] using hb
  | .otherStmt t => rfl

/-- The specifiers hoisted from a statement sequence are exactly the module
declarations it contains, in depth-first order. -/
theorem rewriteList_imports :
    ∀ (l : List Stmt), (rewriteList l).2 = importsOfList l
  | [] => rfl
  | s :: rest => by
    have h1 := rewriteStmt_imports s
    have h2 := rewriteList_imports rest
    simp [rewriteList, importsOfList, h1, h2]

end

/-- C1: a statement classified as a Repr annotation is replaced, in place
and alone, by one call of the representation-assertion primitive of the
runtime helper whose first argument is the original expression (so it is
evaluated exactly once, at its original position) and whose second argument
is the expected text: the first trailing comment with the leading marker
match stripped, then each later trailing comment minus its first character,
joined with newline. -/
theorem c1_repr_replacement (e : JSExpr) (c0 : String) (rest : List String)
    (h : findAssertion (.exprStmt e (c0 :: rest) false) = some .repr) :
    rewriteStmt (.exprStmt e (c0 :: rest) false) =
      (some (.exprStmt
        (.call (runtimeMember "assertRepr")
          [e, .stringLit (String.intercalate "\n"
            (stripReprMarker c0 :: rest.map (fun l => l.drop 1)))])
        (c0 :: rest) true), []) := by
  simp [rewriteStmt, h, reprReplacement, reprText]

/-- Witness for C1 at a concrete annotated statement with a continuation
line: the quotes written by the author around the expected text survive the
stripping of the marker. -/
theorem c1_repr_replacement_witness :
    rewriteStmt (.exprStmt (.raw "x") [" => \"hello\"", "!world"] false) =
      (some (.exprStmt
        (.call (runtimeMember "assertRepr")
          [.raw "x", .stringLit "\"hello\"\nworld"])
        [" => \"hello\"", "!world"] true), []) :=
  c1_repr_replacement (.raw "x") " => \"hello\"" ["!world"] (by decide)

/-- C2: a statement classified as an Error annotation is replaced by an
awaited call of the error-assertion primitive of the runtime helper whose
arguments are a zero-argument asynchronous thunk wrapping the original
expression, the captured error-kind name, and the expected message: the
remainder of the first trailing comment after the match, extended by each
later trailing comment minus its first character, joined with newline. -/
theorem c2_error_replacement (e : JSExpr) (c0 : String) (rest : List String)
    (n m0 : String)
    (h : findAssertion (.exprStmt e (c0 :: rest) false) = some .error)
    (hm : errMatch c0 = some (n, m0)) :
    rewriteStmt (.exprStmt e (c0 :: rest) false) =
      (some (.exprStmt
        (.awaitExpr (.call (runtimeMember "assertError")
          [.asyncArrow e, .stringLit n,
           .stringLit (String.intercalate "\n"
             (m0 :: rest.map (fun l => l.drop 1)))]))
        (c0 :: rest) true), []) := by
  simp [rewriteStmt, h, errorReplacement, errNameMessage, hm]

/-- Witness for C2 at the concrete statement of the specification example:
risky() with the TypeError annotation, plus a continuation line. -/
theorem c2_error_replacement_witness :
    rewriteStmt
      (.exprStmt (.raw "risky()") [" TypeError: bad input", " more"] false) =
      (some (.exprStmt
        (.awaitExpr (.call (runtimeMember "assertError")
          [.asyncArrow (.raw "risky()"), .stringLit "TypeError",
           .stringLit "bad input\nmore"]))
        [" TypeError: bad input", " more"] true), []) :=
  c2_error_replacement (.raw "risky()") " TypeError: bad input" [" more"]
    "TypeError" "bad input" (by decide) (by decide)

/-- C3: annotation detection succeeds only on a bare expression statement
with at least one trailing comment of its own, and classifies by the first
comment alone: a Repr annotation exactly when that comment is optional
whitespace then the marker arrow and a space, an Error annotation exactly
when it is not a Repr match and consists of optional whitespace, letters
ending in the word Error, a colon and a space; when neither matches the
statement is left completely untouched. -/
theorem c3_detection_classification :
    (∀ (e : JSExpr) (comments : List String) (seen : Bool),
      (findAssertion (.exprStmt e comments seen) = some .repr ↔
        ∃ c0 rest ws tail, comments = c0 :: rest ∧
          c0.toList = ws ++ "=> ".toList ++ tail ∧
          ∀ c ∈ ws, isJsSpace c = true)
      ∧ (findAssertion (.exprStmt e comments seen) = some .error ↔
        ∃ c0 rest, comments = c0 :: rest ∧ reprMatchB c0 = false ∧
          ∃ ws name tail, c0.toList = ws ++ name ++ ": ".toList ++ tail ∧
            (∀ c ∈ ws, isJsSpace c = true) ∧
            (∀ c ∈ name, c.isAlpha = true) ∧
            "Error".toList.isSuffixOf name = true)
      ∧ (findAssertion (.exprStmt e comments seen) = none →
          rewriteStmt (.exprStmt e comments seen) =
            (some (.exprStmt e comments seen), [])))
    ∧ (∀ spec, findAssertion (.importDecl spec) = none)
    ∧ (∀ body, findAssertion (.block body) = none)
    ∧ (∀ t, findAssertion (.otherStmt t) = none) := by
  refine ⟨?_, fun spec => rfl, fun body => rfl, fun t => rfl⟩
  intro e comments seen
  refine ⟨?_, ?_, ?_⟩
  · cases comments with
    | nil => simp [findAssertion]
    | cons c0 rest =>
      cases hr : reprMatchB c0 with
      | true =>
        rcases (reprMatchB_iff c0).1 hr with ⟨ws, tail, hd, hws⟩
        simp only [findAssertion, hr, if_true]
        exact ⟨fun _ => ⟨c0, rest, ws, tail, rfl, hd, hws⟩, fun _ => trivial⟩
      | false =>
        simp only [findAssertion, hr, Bool.false_eq_true, if_false]
        constructor
        · intro h
          cases he : (errMatch c0).isSome with
          | true => rw [he] at h; simp at h
          | false => rw [he] at h; simp at h
        · rintro ⟨c0x, restx, ws, tail, hcons, hd, hws⟩
          injection hcons with h1 h2
          subst h1
          have := (reprMatchB_iff c0).2 ⟨_, _, hd, hws⟩
          rw [hr] at this
          exact absurd this (by simp)
  · cases comments with
    | nil => simp [findAssertion]
    | cons c0 rest =>
      cases hr : reprMatchB c0 with
      | true =>
        simp only [findAssertion, hr, if_true]
        constructor
        · intro h; simp at h
        · rintro ⟨c0x, restx, hcons, hrx, hrest⟩
          injection hcons with h1 h2
          subst h1
          rw [hr] at hrx
          exact absurd hrx (by simp)
      | false =>
        simp only [findAssertion, hr, Bool.false_eq_true, if_false]
        cases he : errMatch c0 with
        | none =>
          simp only [he, Option.isSome_none, Bool.false_eq_true, if_false]
          constructor
          · intro h; simp at h
          · rintro ⟨c0x, restx, hcons, hrx, ws, name, tail, hd, hws, hname, hsuf⟩
            injection hcons with h1 h2
            subst h1
            have := (errMatch_eq_some_iff c0 (String.mk name) (String.mk tail)).2
              ⟨ws, name, tail, hd, hws, hname, hsuf, rfl, rfl⟩
            rw [he] at this
            exact absurd this (by simp)
        | some nm =>
          simp only [he, Option.isSome_some, if_true]
          constructor
          · intro _
            rcases (errMatch_eq_some_iff c0 nm.1 nm.2).1 (by rw [he]) with
              ⟨ws, name, tail, hd, hws, hname, hsuf, _, _⟩
            exact ⟨c0, rest, rfl, hr, ws, name, tail, hd, hws, hname, hsuf⟩
          · intro _; trivial
  · intro h
    cases seen with
    | true => simp [rewriteStmt]
    | false => simp [rewriteStmt, h]

/-- Witness for C3: a statement whose first trailing comment matches
neither pattern is left completely untouched by the rewriter. -/
theorem c3_detection_classification_witness :
    rewriteStmt (.exprStmt (.raw "y") ["plain comment"] false) =
      (some (.exprStmt (.raw "y") ["plain comment"] false), []) :=
  (c3_detection_classification.1 (.raw "y") ["plain comment"] false).2.2
    (by decide)

/-- C4: rewriting is idempotent.  Every replacement carries the seen
marker, so traversing the output of a traversal a second time rewrites
nothing (and, all module declarations having been removed, hoists
nothing): no statement is ever double-wrapped in assertion calls. -/
theorem c4_rewrite_idempotent (body : List Stmt) :
    rewriteList (rewriteList body).1 = ((rewriteList body).1, []) :=
  rewriteList_second body


/-! Helper lemmas about the per-sample loop and the document scan. -/

/-- Unfolding of the scan over a non-empty block list. -/
theorem scanAux_cons (prev : Option Block) (b : Block) (rest : List Block) :
    scanAux prev (b :: rest) =
      (match b with
       | .code lang v =>
         if SUPPORTED_LANG lang then [(⟨titleFrom prev, lang, v⟩ : Sample)]
         else []
       | _ => []) ++ scanAux (some b) rest := rfl

/-- When every sample parses, the loop accumulates the hoisted specifiers
of all samples in document order and one case per sample in document
order. -/
theorem processSamples_ok (samples : List Sample) (bodies : List (List Stmt))
    (imps : List String) (cases : List TestCase)
    (h : samples.map parseSample = bodies.map Except.ok) :
    processSamples samples imps cases =
      .ok (imps ++ (bodies.map (fun b => (rewriteList b).2)).flatten,
           cases ++ List.zipWith
             (fun s b =>
               ⟨orFalsy s.title "works", (rewriteList b).1, true⟩)
             samples bodies) := by
  induction samples generalizing bodies imps cases with
  | nil =>
    cases bodies with
    | nil => simp [processSamples]
    | cons b bs => simp at h
  | cons s rest ih =>
    cases bodies with
    | nil => simp at h
    | cons b bs =>
      simp only [List.map_cons, List.cons.injEq] at h
      simp only [processSamples, h.1]
      rw [ih bs _ _ h.2]
      simp [List.append_assoc]

/-- The titles of the accumulated cases are the fallback-defaulted titles
of the samples, in document order. -/
theorem processSamples_titles (samples : List Sample)
    (imps : List String) (cases : List TestCase)
    (outImps : List String) (outCases : List TestCase)
    (h : processSamples samples imps cases = .ok (outImps, outCases)) :
    outCases.map TestCase.title =
      cases.map TestCase.title ++
        samples.map (fun s => orFalsy s.title "works") := by
  induction samples generalizing imps cases with
  | nil =>
    simp only [processSamples, Except.ok.injEq, Prod.mk.injEq] at h
    rw [← h.2]
    simp
  | cons s rest ih =>
    cases hp : parseSample s with
    | error e => simp [processSamples, hp] at h
    | ok body =>
      simp only [processSamples, hp] at h
      have := ih _ _ h
      rw [this]
      simp

/-- The loop produces exactly one case per sample. -/
theorem processSamples_length (samples : List Sample)
    (imps : List String) (cases : List TestCase)
    (outImps : List String) (outCases : List TestCase)
    (h : processSamples samples imps cases = .ok (outImps, outCases)) :
    outCases.length = cases.length + samples.length := by
  induction samples generalizing imps cases with
  | nil =>
    simp only [processSamples, Except.ok.injEq, Prod.mk.injEq] at h
    rw [← h.2]
    simp
  | cons s rest ih =>
    cases hp : parseSample s with
    | error e => simp [processSamples, hp] at h
    | ok body =>
      simp only [processSamples, hp] at h
      have := ih _ _ h
      rw [this]
      simp
      omega

/-- The first parse failure aborts the loop with that failure. -/
theorem processSamples_error (pre : List Sample) (s : Sample)
    (rest : List Sample) (e : String) (imps : List String)
    (cases : List TestCase)
    (hpre : ∀ x ∈ pre, ∃ b, parseSample x = .ok b)
    (hs : parseSample s = .error e) :
    processSamples (pre ++ s :: rest) imps cases = .error e := by
  induction pre generalizing imps cases with
  | nil => simp [processSamples, hs]
  | cons p ps ih =>
    rcases hpre p (by simp) with ⟨b, hb⟩
    simp only [List.cons_append, processSamples, hb]
    exact ih _ _ (fun x hx => hpre x (List.mem_cons_of_mem _ hx))

/-- The scan produces exactly one sample per recognized code block. -/
theorem scanAux_length (blocks : List Block) :
    ∀ prev, (scanAux prev blocks).length =
      blocks.countP isSupportedCodeBlock := by
  induction blocks with
  | nil => intro prev; simp [scanAux]
  | cons b rest ih =>
    intro prev
    rw [scanAux_cons, List.length_append, ih (some b), List.countP_cons]
    cases b with
    | code lang v =>
      by_cases hs : SUPPORTED_LANG lang = true
      · simp [hs, isSupportedCodeBlock]
        omega
      · simp only [Bool.not_eq_true] at hs
        simp [hs, isSupportedCodeBlock]
    | paragraph t => simp [isSupportedCodeBlock]
    | otherBlock => simp [isSupportedCodeBlock]

/-- The sibling block inspected by the visit at position i of the block
list, when the walk reached that list with the given preceding block. -/
def prevAt (prev : Option Block) (blocks : List Block) : Nat → Option Block
  | 0 => prev
  | j + 1 => blocks[j]?

/-- Position correspondence of the scan: the sample produced for the
recognized code block at position i sits at the index counting the
recognized code blocks before i, carries the block language and source, and
takes its title from the directly preceding sibling. -/
theorem scanAux_get (blocks : List Block) :
    ∀ prev i lang v,
      blocks[i]? = some (.code lang v) → SUPPORTED_LANG lang = true →
      (scanAux prev blocks)[(blocks.take i).countP isSupportedCodeBlock]? =
        some ⟨titleFrom (prevAt prev blocks i), lang, v⟩ := by
  induction blocks with
  | nil => intro prev i lang v h _; simp at h
  | cons b rest ih =>
    intro prev i lang v h hsup
    cases i with
    | zero =>
      rw [List.getElem?_cons_zero] at h
      injection h with h
      subst h
      rw [scanAux_cons]
      simp [hsup, prevAt]
    | succ j =>
      rw [List.getElem?_cons_succ] at h
      have hrec := ih (some b) j lang v h hsup
      have hprev : prevAt prev (b :: rest) (j + 1) = prevAt (some b) rest j := by
        cases j <;> simp [prevAt]
      rw [scanAux_cons, show (b :: rest).take (j + 1) = b :: rest.take j from rfl,
        List.countP_cons, hprev]
      cases b with
      | code lang2 v2 =>
        by_cases hs : SUPPORTED_LANG lang2 = true
        · simp only [isSupportedCodeBlock, hs, if_true]
          rw [List.getElem?_append_right (by simp)]
          simpa using hrec
        · simp only [Bool.not_eq_true] at hs
          simp only [isSupportedCodeBlock, hs, Bool.false_eq_true, if_false]
          simpa using hrec
      | paragraph t =>
        simp only [isSupportedCodeBlock, Bool.false_eq_true, if_false]
        simpa using hrec
      | otherBlock =>
        simp only [isSupportedCodeBlock, Bool.false_eq_true, if_false]
        simpa using hrec

/-- A document without recognized code blocks scans to no samples. -/
theorem scanAux_nil_of_unsupported (blocks : List Block)
    (h : ∀ lang v, Block.code lang v ∈ blocks → SUPPORTED_LANG lang = false) :
    ∀ prev, scanAux prev blocks = [] := by
  induction blocks with
  | nil => intro prev; rfl
  | cons b rest ih =>
    intro prev
    rw [scanAux_cons]
    have h2 : scanAux (some b) rest = [] :=
      ih (fun lang v hm => h lang v (List.mem_cons_of_mem _ hm)) (some b)
    rw [h2]
    cases b with
    | code lang v =>
      have hl := h lang v (by simp)
      simp [hl]
    | paragraph t => simp
    | otherBlock => simp

/-- Shared concrete example: a sample body importing a module and holding a
plain expression statement. -/
def exBody1 : List Stmt := [.importDecl "modA", .exprStmt (.raw "a()") [] false]

/-- Shared concrete example: a second sample body importing another module
and ending in an opaque statement. -/
def exBody2 : List Stmt := [.importDecl "modB", .otherStmt "let x = 1"]

/-- Shared concrete example document: a titled sample followed by an
untitled one, each tagged with one of the two recognized spellings. -/
def exBlocks : List Block :=
  [.paragraph "First:",
   .code "js+test" (.ok exBody1),
   .code "javasctipt+test" (.ok exBody2)]

/-- C5: when every sample parses, the assembled program is, in order, the
fixed preamble (polyfill import, runtime helper namespace import, assertion
utility import), every module declaration found anywhere in any sample body
hoisted in first-discovery order across the samples, and exactly one suite
registration titled by the name option, falling back to the filename
option, falling back to the generic default, registering one case per
sample in document order; no module declaration remains inside any
rewritten sample body. -/
theorem c5_program_assembly (blocks : List Block) (opts : Options)
    (bodies : List (List Stmt))
    (h : (scanSamples blocks).map parseSample = bodies.map Except.ok) :
    assemble blocks opts =
      .ok ([.importSideEffect POLYFILL,
            .importNamespace "__MochaDoctestRuntime" RUNTIME,
            .importDefault "assert" "assert"]
           ++ ((bodies.map importsOfList).flatten).map TopStmt.importFrom
           ++ [.describeCall (orFalsy opts.name (orFalsy opts.filename "Suite"))
                (List.zipWith
                  (fun s b =>
                    ⟨orFalsy s.title "works", (rewriteList b).1, true⟩)
                  (scanSamples blocks) bodies)])
    ∧ ∀ b ∈ bodies, listHasImport (rewriteList b).1 = false := by
  refine ⟨?_, fun b _ => rewriteList_no_import b⟩
  have hp := processSamples_ok (scanSamples blocks) bodies [] [] h
  have himp : bodies.map (fun b => (rewriteList b).2) = bodies.map importsOfList :=
    List.map_congr_left (fun b _ => rewriteList_imports b)
  rw [himp] at hp
  simp only [assemble, hp, List.nil_append, suiteTitle]

/-- Witness for C5 on the shared example document: both sample-local module
declarations are hoisted, in discovery order, and both sample bodies are
free of module declarations in the generated cases. -/
theorem c5_program_assembly_witness :
    assemble exBlocks {} =
      .ok [.importSideEffect POLYFILL,
           .importNamespace "__MochaDoctestRuntime" RUNTIME,
           .importDefault "assert" "assert",
           .importFrom "modA",
           .importFrom "modB",
           .describeCall "Suite"
             [⟨"First", [.exprStmt (.raw "a()") [] false], true⟩,
              ⟨"works", [.otherStmt "let x = 1"], true⟩]] :=
  (c5_program_assembly exBlocks {} [exBody1, exBody2] rfl).1

/-- C6 (demonstration of the code bug): the language check of compile.js
line 55 is an unguarded truthy object lookup, so it also finds the
inherited members of the object prototype.  A fenced block tagged
toString, a tag that is neither of the two listed spellings, is accepted:
it becomes a generated test case, and when the body of such a block fails
to parse the compilation aborts with that error instead of the block being
silently skipped. -/
theorem c6_lang_tag_code_bug :
    SUPPORTED_LANG "toString" = true
    ∧ "toString" ≠ "js+test"
    ∧ "toString" ≠ "javasctipt+test"
    ∧ assemble [.code "toString" (.ok [])] {} =
        .ok [.importSideEffect POLYFILL,
             .importNamespace "__MochaDoctestRuntime" RUNTIME,
             .importDefault "assert" "assert",
             .describeCall "Suite" [⟨"works", [], true⟩]]
    ∧ compile (fun _ => none) [.code "toString" (.fail "SyntaxError: y")] {} =
        .error "SyntaxError: y" :=
  ⟨rfl, by decide, by decide, rfl, rfl⟩

/-- C8: the first sample whose source fails to parse aborts the whole
compilation with that parse error: no program is emitted at all. -/
theorem c8_parse_failure_aborts (fs : List String → Option String)
    (blocks : List Block) (opts : Options) (pre : List Sample) (s : Sample)
    (rest : List Sample) (e : String)
    (hscan : scanSamples blocks = pre ++ s :: rest)
    (hpre : ∀ x ∈ pre, ∃ b, parseSample x = .ok b)
    (hs : parseSample s = .error e) :
    compile fs blocks opts = .error e := by
  have hp := processSamples_error pre s rest e [] [] hpre hs
  rw [← hscan] at hp
  simp [compile, assemble, hp]

/-- Witness for C8: a document whose single recognized sample fails to
parse compiles to exactly that error. -/
theorem c8_parse_failure_aborts_witness :
    compile (fun _ => none) [.code "js+test" (.fail "SyntaxError: x")] {} =
      .error "SyntaxError: x" :=
  c8_parse_failure_aborts (fun _ => none)
    [.code "js+test" (.fail "SyntaxError: x")] {} []
    ⟨none, "js+test", .fail "SyntaxError: x"⟩ [] "SyntaxError: x" rfl
    (fun x hx => absurd hx (List.not_mem_nil x)) rfl

/-- C9: a recognized code block directly preceded by a paragraph yields the
sample titled by that paragraph text with one trailing colon stripped; with
no directly preceding paragraph the sample title is absent; and in the
generated registrations an absent (or empty) title falls back to the
generic default, never to an error. -/
theorem c9_title_derivation :
    (∀ (blocks : List Block) (i : Nat) (t lang : String) (v : ParseOutcome),
      blocks[i]? = some (.code lang v) → SUPPORTED_LANG lang = true →
      blocks[i - 1]? = some (.paragraph t) → 1 ≤ i →
      (scanSamples blocks)[(blocks.take i).countP isSupportedCodeBlock]? =
        some ⟨some (stripTrailingColon t), lang, v⟩)
    ∧ (∀ (blocks : List Block) (i : Nat) (lang : String) (v : ParseOutcome),
      blocks[i]? = some (.code lang v) → SUPPORTED_LANG lang = true →
      (i = 0 ∨ ∀ b, blocks[i - 1]? = some b → ∀ t, b ≠ .paragraph t) →
      (scanSamples blocks)[(blocks.take i).countP isSupportedCodeBlock]? =
        some ⟨none, lang, v⟩)
    ∧ (∀ (blocks : List Block) (opts : Options) (prog : List TopStmt)
        (ttl : String) (cases : List TestCase),
        assemble blocks opts = .ok prog →
        prog.getLast? = some (.describeCall ttl cases) →
        cases.map TestCase.title =
          (scanSamples blocks).map (fun s => orFalsy s.title "works")) := by
  refine ⟨?_, ?_, ?_⟩
  · intro blocks i t lang v hcode hsup hprev hi
    cases i with
    | zero => omega
    | succ j =>
      have hg := scanAux_get blocks none (j + 1) lang v hcode hsup
      have hpa : prevAt none blocks (j + 1) = blocks[j]? := rfl
      rw [hpa] at hg
      rw [show (j + 1) - 1 = j from rfl] at hprev
      rw [hprev] at hg
      exact hg
  · intro blocks i lang v hcode hsup hcond
    cases i with
    | zero =>
      have hg := scanAux_get blocks none 0 lang v hcode hsup
      exact hg
    | succ j =>
      have hg := scanAux_get blocks none (j + 1) lang v hcode hsup
      have hpa : prevAt none blocks (j + 1) = blocks[j]? := rfl
      rw [hpa] at hg
      rcases hcond with h0 | hnp
      · exact absurd h0 (by omega)
      · cases hb : blocks[j]? with
        | none => rw [hb] at hg; exact hg
        | some b =>
          rw [hb] at hg
          cases b with
          | paragraph t2 =>
            exact absurd rfl (hnp _ (by rw [show (j + 1) - 1 = j from rfl, hb]) t2)
          | code lang2 v2 => exact hg
          | otherBlock => exact hg
  · intro blocks opts prog ttl cases hass hlast
    cases hps : processSamples (scanSamples blocks) [] [] with
    | error e => simp [assemble, hps] at hass
    | ok pair =>
      obtain ⟨imps, cs⟩ := pair
      simp only [assemble, hps, Except.ok.injEq] at hass
      rw [← hass] at hlast
      rw [List.getLast?_concat] at hlast
      injection hlast with hlast
      injection hlast with httl hcases
      rw [← hcases]
      simpa using processSamples_titles (scanSamples blocks) [] [] imps cs hps

/-- Witness for C9: a recognized block preceded by a paragraph whose text
ends in a colon becomes the sample titled by that text, colon stripped. -/
theorem c9_title_derivation_witness :
    (scanSamples [.paragraph "Intro:", .code "js+test" (.ok [])])[0]? =
      some ⟨some "Intro", "js+test", .ok []⟩ :=
  c9_title_derivation.1 [.paragraph "Intro:", .code "js+test" (.ok [])] 1
    "Intro:" "js+test" (.ok []) rfl rfl rfl (by omega)

/-- Concrete example filesystem for the remapper: one manifest, declaring
package name foo, in the directory /pkg. -/
def fsFoo : List String → Option String :=
  fun d => if d = ["pkg"] then some "foo" else none

/-- C7 counterexample: importing the package by its exact name from
/pkg/docs does not produce the bare relative path to the manifest
directory; the emitted specifier carries a trailing path separator
(compile.js line 158), and likewise the same-directory case yields the
dotted directory with a separator rather than the bare default dot. -/
theorem c7_remap_counterexample :
    resolveModuleSource fsFoo "foo" "/pkg/docs/readme" = "../" ∧
    resolveModuleSource fsFoo "foo" "/pkg/docs/readme" ≠ ".." ∧
    resolveModuleSource fsFoo "foo" "/pkg/readme" = "./" ∧
    resolveModuleSource fsFoo "foo" "/pkg/readme" ≠ "." :=
  ⟨rfl, by decide, rfl, by decide⟩

/-- C7 amended: with a nearest enclosing manifest, a specifier exactly
equal to the declared package name is rewritten to the relative path from
the importing directory to the manifest directory followed by a trailing
path separator (so foo from /pkg/docs yields ../ and, from /pkg itself,
./); a specifier beginning with the package name plus a path separator has
that name prefix replaced by the same relative path with the remainder
preserved; all other specifiers, and all specifiers when no manifest is
found, pass through unchanged. -/
theorem c7_remap_amended :
    (∀ (fs : List String → Option String) (src fn : String)
        (pj : PackageJSON),
      findPackageJSON fs ((pathComponents fn).dropLast) = some pj →
      (src = pj.name →
        resolveModuleSource fs src fn =
          jsOr (relativePath ((pathComponents fn).dropLast) pj.dir) "."
            ++ "/")
      ∧ ((pj.name ++ "/").toList.isPrefixOf src.toList = true →
          src ≠ pj.name →
        resolveModuleSource fs src fn =
          jsOr (relativePath ((pathComponents fn).dropLast) pj.dir) "."
            ++ src.drop pj.name.length)
      ∧ (src ≠ pj.name →
          (pj.name ++ "/").toList.isPrefixOf src.toList = false →
        resolveModuleSource fs src fn = src))
    ∧ (∀ (fs : List String → Option String) (src fn : String),
        findPackageJSON fs ((pathComponents fn).dropLast) = none →
        resolveModuleSource fs src fn = src)
    ∧ resolveModuleSource fsFoo "foo" "/pkg/docs/readme" = "../"
    ∧ resolveModuleSource fsFoo "foo/sub" "/pkg/docs/readme" = "../sub"
    ∧ resolveModuleSource fsFoo "foo" "/pkg/readme" = "./"
    ∧ resolveModuleSource fsFoo "bar" "/pkg/docs/readme" = "bar" := by
  refine ⟨?_, ?_, rfl, rfl, rfl, rfl⟩
  · intro fs src fn pj hpj
    refine ⟨?_, ?_, ?_⟩
    · intro he
      simp only [resolveModuleSource, resolveGiven, hpj]
      rw [if_pos he]
    · intro hp hne
      simp only [resolveModuleSource, resolveGiven, hpj]
      rw [if_neg hne, if_pos hp]
    · intro hne hp
      simp only [resolveModuleSource, resolveGiven, hpj]
      rw [if_neg hne, if_neg (by simp only [hp]; exact Bool.false_ne_true)]
  · intro fs src fn h
    simp [resolveModuleSource, resolveGiven, h]

/-- Witness for C7 amended, on the prefixed-specifier branch of the
specification example. -/
theorem c7_remap_amended_witness :
    resolveModuleSource fsFoo "foo/sub" "/pkg/docs/readme" = "../sub" :=
  ((c7_remap_amended.1 fsFoo "foo/sub" "/pkg/docs/readme"
      ⟨"foo", ["pkg"]⟩ rfl).2.1 (by decide) (by decide))

/-- Invariant carried by the manifest cache: no directory was walked twice,
and every walked directory has a cache entry (a found manifest or the
cached null of a failed walk). -/
def cacheInv (st : CacheState) : Prop :=
  st.walks.Nodup ∧ ∀ d ∈ st.walks, lookupCache st.cache d ≠ none

/-- One resolution preserves the cache invariant: a cached directory,
even one cached as a failure, is never walked again. -/
theorem resolveWithCache_inv (fs : List String → Option String)
    (st : CacheState) (src fn : String) (h : cacheInv st) :
    cacheInv (resolveWithCache fs st src fn).2 := by
  cases hl : lookupCache st.cache ((pathComponents fn).dropLast) with
  | some c =>
    simp only [resolveWithCache, hl]
    exact h
  | none =>
    simp only [resolveWithCache, hl]
    constructor
    · have hnm : (pathComponents fn).dropLast ∉ st.walks :=
        fun hm => (h.2 _ hm) hl
      rw [List.nodup_append]
      refine ⟨h.1, List.nodup_singleton _, ?_⟩
      intro x hx hxd
      rw [List.mem_singleton] at hxd
      subst hxd
      exact hnm hx
    · intro d2 hd2
      rw [List.mem_append] at hd2
      simp only [lookupCache]
      by_cases hk : (pathComponents fn).dropLast = d2
      · simp [hk]
      · simp only [hk, if_false]
        cases hd2 with
        | inl hin => exact h.2 d2 hin
        | inr hin =>
          rw [List.mem_singleton] at hin
          exact absurd hin.symm hk

/-- The transformation pass preserves the cache invariant. -/
theorem transformProgram_inv (fs : List String → Option String)
    (fname : String) (prog : List TopStmt) :
    ∀ st, cacheInv st → cacheInv (transformProgram fs fname prog st).2 := by
  induction prog with
  | nil => intro st h; exact h
  | cons t rest ih =>
    intro st h
    simp only [transformProgram]
    apply ih
    cases t with
    | importSideEffect s => exact resolveWithCache_inv fs st s fname h
    | importNamespace b s => exact resolveWithCache_inv fs st s fname h
    | importDefault b s => exact resolveWithCache_inv fs st s fname h
    | importFrom s => exact resolveWithCache_inv fs st s fname h
    | describeCall ttl cs => exact h

/-- C10: the manifest cache starts fresh inside each compile invocation,
and within one invocation no directory is ever walked twice: the
transformation pass starting from the fresh cache logs each walked
directory at most once, because any attempted directory, including one
whose walk failed and was cached as null, is answered from the cache. -/
theorem c10_manifest_cache :
    (∀ (fs : List String → Option String) (fname : String)
        (prog : List TopStmt),
      ((transformProgram fs fname prog freshCacheState).2).walks.Nodup)
    ∧ (∀ (fs : List String → Option String) (st : CacheState)
        (src fn : String),
        lookupCache st.cache ((pathComponents fn).dropLast) ≠ none →
        (resolveWithCache fs st src fn).2 = st) := by
  constructor
  · intro fs fname prog
    have h := transformProgram_inv fs fname prog freshCacheState
      ⟨List.nodup_nil, by intro d hd; exact absurd hd (List.not_mem_nil d)⟩
    exact h.1
  · intro fs st src fn h
    cases hl : lookupCache st.cache ((pathComponents fn).dropLast) with
    | none => exact absurd hl h
    | some c => simp [resolveWithCache, hl]

/-- Witness for C10: a resolution whose importing directory was already
attempted and cached as a failure leaves the cache state untouched, walking
nothing. -/
theorem c10_manifest_cache_witness :
    (resolveWithCache (fun _ => none)
      ⟨[([], none)], []⟩ "foo" "x").2 = ⟨[([], none)], []⟩ :=
  c10_manifest_cache.2 (fun _ => none) ⟨[([], none)], []⟩ "foo" "x"
    (by decide)

end Testdoc
